import Mathlib

/-!
Verification of the terminal session proxy core of the smart-suggestion
repository: the bounded session log writer (`lineLimitedWriter`), the process
singleton lock (`createProcessLock` / `cleanupProcessLock`), the session path
derivation (`GetSessionBasedLogFile`), the stale-log purge
(`cleanupOldSessionLogs`), and the terminal normalizer
(`stripANSI` / `simulateTerminal`, modelled from the specification since their
definitions are absent from the provided sources while their tests are present).

Strings are embedded as `List Char`; the Go `int` type is embedded as `Int`
where its sign matters (the writer's `maxLines`), and file contents are the
byte sequences the code would write.
-/

namespace SmartSuggestion

/-- Abbreviation turning a string literal into the `List Char` representation
used throughout this development. -/
def s2l (s : String) : List Char := s.toList

/-! ## Bounded session log writer (`lineLimitedWriter`, proxy.go)

The Go writer holds `maxLines int`, `lines []string`, `buf []byte` (the file
handle, path and mutex carry no logical content and are modelled by
`flushContent` below).  `Write` appends the incoming bytes to `buf`, repeatedly
splits off the first newline-terminated segment (terminator included), pushes
it onto `lines` evicting the front element whenever `len(lines) > maxLines`,
and finally rewrites the whole file from `lines`. -/

/-- Scan of the buffer for the first `'\n'` in `lineLimitedWriter.Write`:
returns `buf[:idx+1]` (the completed segment, newline included) and
`buf[idx+1:]`, or `none` when the buffer holds no newline. -/
def findNewline : List Char → Option (List Char × List Char)
  | [] => none
  | c :: rest =>
    if c = '\n' then some ([c], rest)
    else
      match findNewline rest with
      | some (line, rem) => some (c :: line, rem)
      | none => none

theorem findNewline_eq_none {buf : List Char} :
    findNewline buf = none ↔ '\n' ∉ buf := by
  induction buf with
  | nil => simp [findNewline]
  | cons c rest ih =>
    by_cases hc : c = '\n'
    · subst hc; simp [findNewline]
    · cases h : findNewline rest with
      | none =>
        simp only [findNewline, if_neg hc, h, List.mem_cons]
        have : '\n' ∉ rest := ih.mp h
        simp [Ne.symm hc, this]
      | some p =>
        simp only [findNewline, if_neg hc, h, List.mem_cons]
        have : ¬ findNewline rest = none := by simp [h]
        have hmem : '\n' ∈ rest := by
          by_contra hnot
          exact this (ih.mpr hnot)
        simp [hmem]

/-- Characterization of a successful newline scan: the buffer splits as the
returned segment followed by the returned remainder, and the segment is
nonempty and ends with the newline. -/
theorem findNewline_spec {buf l r : List Char}
    (h : findNewline buf = some (l, r)) :
    buf = l ++ r ∧ l ≠ [] ∧ l.getLast? = some '\n' := by
  induction buf generalizing l r with
  | nil => simp [findNewline] at h
  | cons c rest ih =>
    by_cases hc : c = '\n'
    · subst hc
      simp only [findNewline, if_true, eq_self_iff_true, Option.some.injEq,
        Prod.mk.injEq] at h
      obtain ⟨h1, h2⟩ := h
      subst h1; subst h2
      exact ⟨rfl, by simp, rfl⟩
    · simp only [findNewline, if_neg hc] at h
      cases hrest : findNewline rest with
      | none => rw [hrest] at h; cases h
      | some p =>
        obtain ⟨l₂, r₂⟩ := p
        rw [hrest] at h
        simp only [Option.some.injEq, Prod.mk.injEq] at h
        obtain ⟨h1, h2⟩ := h
        obtain ⟨hb, hne, hlast⟩ := ih hrest
        subst h1; subst h2
        refine ⟨by rw [hb]; rfl, by simp, ?_⟩
        obtain ⟨x, xs, rfl⟩ := List.exists_cons_of_ne_nil hne
        rw [List.getLast?_cons_cons]
        exact hlast

theorem findNewline_rest_length {buf l r : List Char}
    (h : findNewline buf = some (l, r)) : r.length < buf.length := by
  obtain ⟨hb, hne, _⟩ := findNewline_spec h
  have : 0 < l.length := List.length_pos.mpr hne
  rw [hb]
  simp only [List.length_append]
  omega

/-- Eviction step of `lineLimitedWriter.Write`: append the completed segment
and drop the oldest entry when the ring exceeds `maxLines`. -/
def pushLine (maxLines : Int) (lines : List (List Char)) (line : List Char) :
    List (List Char) :=
  let ls := lines ++ [line]
  if (ls.length : Int) > maxLines then ls.drop 1 else ls

/-- Newline-scanning loop of `lineLimitedWriter.Write`: repeatedly split off
the first completed segment and push it onto the ring, until no newline
remains; returns the final ring and the remaining (unterminated) buffer. -/
def processBuf (maxLines : Int) (lines : List (List Char)) (buf : List Char) :
    List (List Char) × List Char :=
  match h : findNewline buf with
  | none => (lines, buf)
  | some (line, rem) => processBuf maxLines (pushLine maxLines lines line) rem
termination_by buf.length
decreasing_by exact findNewline_rest_length h

/-- State of the bounded session log writer (`lineLimitedWriter`): the file
handle, file path and mutex of the Go struct are not part of the logical
state; the file's content after a flush is `flushContent`. -/
structure lineLimitedWriter where
  maxLines : Int
  lines : List (List Char)
  buf : List Char
deriving DecidableEq, Repr

/-- Constructor `newLineLimitedWriter`: empty ring and empty pending buffer. -/
def newLineLimitedWriter (maxLines : Int) : lineLimitedWriter :=
  ⟨maxLines, [], []⟩

/-- State transition of `lineLimitedWriter.Write`, together with the returned
byte count `n` (always `len(p)` in the source). -/
def lineLimitedWriter.write (w : lineLimitedWriter) (p : List Char) :
    lineLimitedWriter × Nat :=
  let res := processBuf w.maxLines w.lines (w.buf ++ p)
  (⟨w.maxLines, res.1, res.2⟩, p.length)

/-- Content of the backing file after `lineLimitedWriter.flush`: the file is
truncated to zero, rewound, and every ring entry is written in order. -/
def lineLimitedWriter.flushContent (w : lineLimitedWriter) : List Char :=
  w.lines.join

/-- Result of `lineLimitedWriter.Write` including the flush outcome: the ring
and pending buffer are updated first, then `flush` runs; on a flush error the
method returns `len(p)` together with the error, otherwise `len(p)` and nil.
The third component reports whether an error was returned. -/
def lineLimitedWriter.writeWithFlush (w : lineLimitedWriter) (p : List Char)
    (flushFails : Bool) : lineLimitedWriter × Nat × Bool :=
  let res := processBuf w.maxLines w.lines (w.buf ++ p)
  (⟨w.maxLines, res.1, res.2⟩, p.length, flushFails)

/-- Folding a whole sequence of `Write` calls over a writer. -/
def writeAll (w : lineLimitedWriter) (ps : List (List Char)) :
    lineLimitedWriter :=
  ps.foldl (fun w p => (w.write p).1) w

/-- Helper for `completedSplit`: `cur` accumulates (reversed) the characters
of the current unfinished segment. -/
def completedSplitAux (cur : List Char) : List Char → List (List Char) × List Char
  | [] => ([], cur.reverse)
  | c :: rest =>
    if c = '\n' then
      let res := completedSplitAux [] rest
      ((cur.reverse ++ [c]) :: res.1, res.2)
    else completedSplitAux (c :: cur) rest

/-- Reference decomposition of a byte stream into its completed
newline-terminated segments (terminators included) and the trailing bytes
after the last terminator. -/
def completedSplit (s : List Char) : List (List Char) × List Char :=
  completedSplitAux [] s

/-- Suffix of the last `n` elements of a list (the last `min n (length l)`
elements when the list is shorter). -/
def lastN (n : Nat) (l : List α) : List α := l.drop (l.length - n)

theorem processBuf_of_none {N : Int} {lines : List (List Char)} {buf : List Char}
    (h : findNewline buf = none) : processBuf N lines buf = (lines, buf) := by
  rw [processBuf]
  split <;> simp_all

theorem processBuf_of_some {N : Int} {lines : List (List Char)}
    {buf line rem : List Char} (h : findNewline buf = some (line, rem)) :
    processBuf N lines buf = processBuf N (pushLine N lines line) rem := by
  rw [processBuf]
  split <;> simp_all

theorem completedSplitAux_of_none {s : List Char} (h : findNewline s = none)
    (cur : List Char) : completedSplitAux cur s = ([], cur.reverse ++ s) := by
  induction s generalizing cur with
  | nil => simp [completedSplitAux]
  | cons c rest ih =>
    by_cases hc : c = '\n'
    · exfalso
      have := findNewline_eq_none.mp h
      simp [hc] at this
    · have hrest : findNewline rest = none := by
        rw [findNewline_eq_none] at h ⊢
        intro hm; exact h (List.mem_cons_of_mem _ hm)
      simp only [completedSplitAux, if_neg hc]
      rw [ih hrest]
      simp

theorem completedSplitAux_of_some {s l r : List Char}
    (h : findNewline s = some (l, r)) (cur : List Char) :
    completedSplitAux cur s
      = ((cur.reverse ++ l) :: (completedSplitAux [] r).1,
         (completedSplitAux [] r).2) := by
  induction s generalizing cur l r with
  | nil => simp [findNewline] at h
  | cons c rest ih =>
    by_cases hc : c = '\n'
    · subst hc
      simp only [findNewline, if_true, eq_self_iff_true, Option.some.injEq,
        Prod.mk.injEq] at h
      obtain ⟨h1, h2⟩ := h
      subst h1; subst h2
      simp [completedSplitAux]
    · simp only [findNewline, if_neg hc] at h
      cases hrest : findNewline rest with
      | none => rw [hrest] at h; cases h
      | some pr =>
        obtain ⟨l₂, r₂⟩ := pr
        rw [hrest] at h
        simp only [Option.some.injEq, Prod.mk.injEq] at h
        obtain ⟨h1, h2⟩ := h
        subst h1; subst h2
        simp only [completedSplitAux, if_neg hc]
        rw [ih hrest]
        simp

theorem completedSplit_of_none {s : List Char} (h : findNewline s = none) :
    completedSplit s = ([], s) := by
  unfold completedSplit
  rw [completedSplitAux_of_none h]
  simp

theorem completedSplit_of_some {s line rem : List Char}
    (h : findNewline s = some (line, rem)) :
    completedSplit s = (line :: (completedSplit rem).1, (completedSplit rem).2) := by
  unfold completedSplit
  rw [completedSplitAux_of_some h]
  simp

theorem lastN_of_length_le {l : List α} {n : Nat} (h : l.length ≤ n) :
    lastN n l = l := by
  unfold lastN
  have : l.length - n = 0 := by omega
  rw [this, List.drop_zero]

theorem length_lastN (n : Nat) (l : List α) :
    (lastN n l).length = min n l.length := by
  unfold lastN
  rw [List.length_drop]
  omega

theorem lastN_drop {l : List α} {n k : Nat} (h : n + k ≤ l.length) :
    lastN n (l.drop k) = lastN n l := by
  unfold lastN
  rw [List.drop_drop, List.length_drop]
  congr 1
  omega

theorem lastN_append_absorb (n : Nat) (xs ys : List α) :
    lastN n (lastN n xs ++ ys) = lastN n (xs ++ ys) := by
  rcases le_or_lt xs.length n with h | h
  · rw [lastN_of_length_le h]
  · have h1 : lastN n xs ++ ys = (xs ++ ys).drop (xs.length - n) := by
      rw [List.drop_append_of_le_length (by omega)]
      rfl
    rw [h1, lastN_drop]
    rw [List.length_append]
    omega

theorem pushLine_eq_lastN {N : Int} (hN : 0 < N) {lines : List (List Char)}
    (hlen : (lines.length : Int) ≤ N) (line : List Char) :
    pushLine N lines line = lastN N.toNat (lines ++ [line]) := by
  unfold pushLine lastN
  by_cases h : ((lines ++ [line]).length : Int) > N
  · rw [if_pos h]
    have : (lines ++ [line]).length - N.toNat = 1 := by
      rw [List.length_append] at h ⊢
      simp only [List.length_singleton] at h ⊢
      omega
    rw [this]
  · rw [if_neg h]
    have : (lines ++ [line]).length - N.toNat = 0 := by
      rw [List.length_append] at h ⊢
      simp only [List.length_singleton] at h ⊢
      omega
    rw [this, List.drop_zero]

theorem findNewline_append_some {s l r : List Char}
    (h : findNewline s = some (l, r)) (p : List Char) :
    findNewline (s ++ p) = some (l, r ++ p) := by
  induction s generalizing l r with
  | nil => simp [findNewline] at h
  | cons c rest ih =>
    by_cases hc : c = '\n'
    · subst hc
      simp only [findNewline, if_true, eq_self_iff_true, Option.some.injEq,
        Prod.mk.injEq] at h
      obtain ⟨h1, h2⟩ := h
      subst h1; subst h2
      simp [findNewline]
    · simp only [findNewline, if_neg hc] at h
      cases hrest : findNewline rest with
      | none => rw [hrest] at h; cases h
      | some pr =>
        obtain ⟨l₂, r₂⟩ := pr
        rw [hrest] at h
        simp only [Option.some.injEq, Prod.mk.injEq] at h
        obtain ⟨h1, h2⟩ := h
        subst h1; subst h2
        have := ih hrest
        simp only [List.cons_append, findNewline, if_neg hc, List.append_eq, this]

/-- Stream composition of the reference decomposition: the completed segments
of `s ++ p` are the completed segments of `s` followed by the completed
segments of the leftover of `s` with `p` appended. -/
theorem completedSplit_append (s p : List Char) :
    completedSplit (s ++ p)
      = ((completedSplit s).1 ++ (completedSplit ((completedSplit s).2 ++ p)).1,
         (completedSplit ((completedSplit s).2 ++ p)).2) := by
  cases h : findNewline s with
  | none =>
    rw [completedSplit_of_none h]
    simp
  | some pr =>
    obtain ⟨line, rem⟩ := pr
    rw [completedSplit_of_some h, completedSplit_of_some (findNewline_append_some h p)]
    rw [completedSplit_append rem p]
    simp
termination_by s.length
decreasing_by exact findNewline_rest_length h

/-- Eviction loop versus the reference decomposition: starting from a ring of
at most `N` entries, the loop keeps exactly the last `N` of the old entries
followed by the completed segments, and leaves the unterminated remainder. -/
theorem processBuf_spec {N : Int} (hN : 0 < N) (lines : List (List Char))
    (hlen : (lines.length : Int) ≤ N) (buf : List Char) :
    processBuf N lines buf
      = (lastN N.toNat (lines ++ (completedSplit buf).1), (completedSplit buf).2) := by
  cases h : findNewline buf with
  | none =>
    rw [processBuf_of_none h, completedSplit_of_none h]
    have hle : lines.length ≤ N.toNat := by omega
    simp [lastN_of_length_le hle]
  | some pr =>
    obtain ⟨line, rem⟩ := pr
    rw [processBuf_of_some h, completedSplit_of_some h]
    rw [pushLine_eq_lastN hN hlen]
    have hlen2 : ((lastN N.toNat (lines ++ [line])).length : Int) ≤ N := by
      rw [length_lastN]
      omega
    rw [processBuf_spec hN _ hlen2 rem]
    rw [lastN_append_absorb]
    simp
termination_by buf.length
decreasing_by exact findNewline_rest_length h

theorem writeAll_nil (w : lineLimitedWriter) : writeAll w [] = w := rfl

theorem writeAll_cons (w : lineLimitedWriter) (p : List Char)
    (ps : List (List Char)) : writeAll w (p :: ps) = writeAll (w.write p).1 ps := rfl

/-- Invariant carried across a sequence of `Write` calls: if the writer state
already reflects the stream `s`, then after the remaining chunks it reflects
`s ++ chunks.join`. -/
theorem writeAll_inv {N : Int} (hN : 0 < N) (s : List Char)
    (chunks : List (List Char)) :
    writeAll ⟨N, lastN N.toNat (completedSplit s).1, (completedSplit s).2⟩ chunks
      = ⟨N, lastN N.toNat (completedSplit (s ++ chunks.join)).1,
           (completedSplit (s ++ chunks.join)).2⟩ := by
  induction chunks generalizing s with
  | nil => simp [writeAll_nil]
  | cons p ps ih =>
    rw [writeAll_cons]
    have hlen : ((lastN N.toNat (completedSplit s).1).length : Int) ≤ N := by
      rw [length_lastN]
      omega
    have hw : ((⟨N, lastN N.toNat (completedSplit s).1,
          (completedSplit s).2⟩ : lineLimitedWriter).write p).1
        = ⟨N, lastN N.toNat (completedSplit (s ++ p)).1,
             (completedSplit (s ++ p)).2⟩ := by
      show (⟨N, (processBuf N (lastN N.toNat (completedSplit s).1)
          ((completedSplit s).2 ++ p)).1,
          (processBuf N (lastN N.toNat (completedSplit s).1)
          ((completedSplit s).2 ++ p)).2⟩ : lineLimitedWriter) = _
      rw [processBuf_spec hN _ hlen]
      rw [lastN_append_absorb]
      rw [completedSplit_append s p]
    rw [hw, ih (s ++ p)]
    simp

/-- Every completed segment produced by the reference decomposition is
nonempty and ends with the newline terminator. -/
theorem completedSplit_segments (s : List Char) :
    ∀ l ∈ (completedSplit s).1, l ≠ [] ∧ l.getLast? = some '\n' := by
  cases h : findNewline s with
  | none =>
    rw [completedSplit_of_none h]
    simp
  | some pr =>
    obtain ⟨line, rem⟩ := pr
    rw [completedSplit_of_some h]
    intro l hl
    rcases List.mem_cons.mp hl with rfl | hl₂
    · obtain ⟨_, hne, hlast⟩ := findNewline_spec h
      exact ⟨hne, hlast⟩
    · exact completedSplit_segments rem l hl₂
termination_by s.length
decreasing_by exact findNewline_rest_length h

/-- The leftover of the reference decomposition holds no newline. -/
theorem completedSplit_rem (s : List Char) : '\n' ∉ (completedSplit s).2 := by
  cases h : findNewline s with
  | none =>
    rw [completedSplit_of_none h]
    exact findNewline_eq_none.mp h
  | some pr =>
    obtain ⟨line, rem⟩ := pr
    rw [completedSplit_of_some h]
    exact completedSplit_rem rem
termination_by s.length
decreasing_by exact findNewline_rest_length h

theorem completedSplit_nil : completedSplit ([] : List Char) = ([], []) :=
  completedSplit_of_none rfl

/-- C1: Bounded-writer invariant — for every sequence of `Write` calls with a
positive line limit `N`, the ring holds exactly the last `min N totalLines`
completed newline-terminated segments of the concatenated input in original
order, the flushed file is their concatenation (each segment ends in the line
terminator, so a nonempty file ends in a trailing line break), and the bytes
after the last terminator stay in the pending buffer, absent from the file. -/
theorem bounded_writer_invariant (N : Int) (hN : 0 < N)
    (chunks : List (List Char)) :
    (writeAll (newLineLimitedWriter N) chunks).lines
        = lastN N.toNat (completedSplit chunks.join).1
    ∧ (writeAll (newLineLimitedWriter N) chunks).flushContent
        = (lastN N.toNat (completedSplit chunks.join).1).join
    ∧ (∀ l ∈ (writeAll (newLineLimitedWriter N) chunks).lines,
        l ≠ [] ∧ l.getLast? = some '\n')
    ∧ (writeAll (newLineLimitedWriter N) chunks).buf
        = (completedSplit chunks.join).2
    ∧ '\n' ∉ (writeAll (newLineLimitedWriter N) chunks).buf := by
  have hstart : newLineLimitedWriter N
      = ⟨N, lastN N.toNat (completedSplit []).1, (completedSplit []).2⟩ := by
    rw [completedSplit_nil]
    simp [newLineLimitedWriter, lastN]
  have hmain := writeAll_inv hN [] chunks
  rw [← hstart, List.nil_append] at hmain
  refine ⟨by rw [hmain], ?_, ?_, by rw [hmain], ?_⟩
  · unfold lineLimitedWriter.flushContent
    rw [hmain]
  · intro l hl
    rw [hmain] at hl
    have hl₂ : l ∈ (completedSplit chunks.join).1 :=
      List.drop_subset _ _ hl
    exact completedSplit_segments chunks.join l hl₂
  · rw [hmain]
    exact completedSplit_rem chunks.join

/-- Witness for C1 at the spec's concrete example: with `N = 3`, writing
"a\n","b\n","c\n","d\n" leaves the file holding exactly "b\nc\nd\n". -/
theorem bounded_writer_invariant_witness :
    (0 : Int) < 3
    ∧ (writeAll (newLineLimitedWriter 3)
        [s2l "a\n", s2l "b\n", s2l "c\n", s2l "d\n"]).flushContent
      = s2l "b\nc\nd\n" := by
  refine ⟨by norm_num, ?_⟩
  have h := (bounded_writer_invariant 3 (by norm_num)
      [s2l "a\n", s2l "b\n", s2l "c\n", s2l "d\n"]).2.1
  rw [h]
  decide

theorem pushLine_nonpos {N : Int} (hN : N ≤ 0) (line : List Char) :
    pushLine N [] line = [] := by
  unfold pushLine
  rw [if_pos]
  · rfl
  · simp
    omega

theorem processBuf_nonpos {N : Int} (hN : N ≤ 0) (buf : List Char) :
    processBuf N [] buf = ([], (completedSplit buf).2) := by
  cases h : findNewline buf with
  | none => rw [processBuf_of_none h, completedSplit_of_none h]
  | some pr =>
    obtain ⟨line, rem⟩ := pr
    rw [processBuf_of_some h, pushLine_nonpos hN, completedSplit_of_some h]
    exact processBuf_nonpos hN rem
termination_by buf.length
decreasing_by exact findNewline_rest_length h

theorem writeAll_nonpos {N : Int} (hN : N ≤ 0) (chunks : List (List Char))
    (buf : List Char) :
    (writeAll ⟨N, [], buf⟩ chunks).lines = [] := by
  induction chunks generalizing buf with
  | nil => rfl
  | cons p ps ih =>
    rw [writeAll_cons]
    have hw : ((⟨N, [], buf⟩ : lineLimitedWriter).write p).1
        = ⟨N, [], (completedSplit (buf ++ p)).2⟩ := by
      show (⟨N, (processBuf N [] (buf ++ p)).1,
          (processBuf N [] (buf ++ p)).2⟩ : lineLimitedWriter) = _
      rw [processBuf_nonpos hN]
    rw [hw]
    exact ih _

/-- Clamping of the requested line bound in `RunProxyWithIO`: a non-positive
`BufferLines` option is replaced by the default 100 before the writer is
constructed. -/
def effectiveBufferLines (bufferLines : Int) : Int :=
  if bufferLines ≤ 0 then 100 else bufferLines

/-- C9 counterexample: with line limit 0 the completed line "a\n" is *not*
retained — the ring no longer contains it and the flushed file is empty,
refuting that `N ≤ 0` disables eviction. -/
theorem nonpos_limit_counterexample :
    s2l "a\n" ∉ (writeAll (newLineLimitedWriter 0) [s2l "a\n"]).lines
    ∧ (writeAll (newLineLimitedWriter 0) [s2l "a\n"]).flushContent = [] := by
  have h := writeAll_nonpos (le_refl (0 : Int)) [s2l "a\n"] []
  constructor
  · show s2l "a\n" ∉ (writeAll ⟨0, [], []⟩ [s2l "a\n"]).lines
    rw [h]
    simp
  · show (writeAll ⟨0, [], []⟩ [s2l "a\n"]).flushContent = []
    unfold lineLimitedWriter.flushContent
    rw [h]
    rfl

/-- C9 (amended): constructing the writer with `N ≤ 0` evicts every completed
line immediately — after any sequence of writes the ring is empty and the
flushed file is empty; the proxy itself never builds such a writer because
`RunProxyWithIO` replaces a non-positive `BufferLines` with the default 100. -/
theorem nonpos_limit_evicts_everything (N : Int) (hN : N ≤ 0)
    (chunks : List (List Char)) :
    (writeAll (newLineLimitedWriter N) chunks).lines = []
    ∧ (writeAll (newLineLimitedWriter N) chunks).flushContent = []
    ∧ effectiveBufferLines N = 100 := by
  have h := writeAll_nonpos hN chunks []
  refine ⟨h, ?_, ?_⟩
  · show (writeAll ⟨N, [], []⟩ chunks).flushContent = []
    unfold lineLimitedWriter.flushContent
    rw [writeAll_nonpos hN chunks []]
    rfl
  · unfold effectiveBufferLines
    rw [if_pos hN]

/-- Witness for the amended C9 at `N = 0` with the single write "a\n". -/
theorem nonpos_limit_evicts_everything_witness :
    (0 : Int) ≤ 0
    ∧ ((writeAll (newLineLimitedWriter 0) [s2l "a\n"]).lines = []
        ∧ (writeAll (newLineLimitedWriter 0) [s2l "a\n"]).flushContent = []
        ∧ effectiveBufferLines 0 = 100) :=
  ⟨le_refl 0, nonpos_limit_evicts_everything 0 (le_refl 0) [s2l "a\n"]⟩

/-- C10: `Write` always returns `n = len(p)` — also when the flush fails, in
which case the error is reported alongside the full length — and the ring and
pending buffer are updated before the flush is attempted, so the post-call
state is independent of the flush outcome and a later successful flush writes
the complete current ring. -/
theorem write_returns_full_length_and_updates_before_flush
    (w : lineLimitedWriter) (p : List Char) (flushFails : Bool) :
    (w.writeWithFlush p flushFails).2.1 = p.length
    ∧ (w.writeWithFlush p flushFails).2.2 = flushFails
    ∧ (w.writeWithFlush p flushFails).1 = (w.write p).1
    ∧ (w.writeWithFlush p flushFails).1.flushContent
        = ((w.write p).1.lines).join :=
  ⟨rfl, rfl, rfl, rfl⟩

/-! ## Terminal normalizer (`simulateTerminal` / `stripANSI`)

The repository's test suite (`TestStripANSI`, `TestSimulateTerminal`,
`TestLineLimitedWriter_StripANSI`) calls `stripANSI` and `simulateTerminal`,
but no definition of either function appears in the provided sources, so the
package as shipped does not even compile.  The two functions are therefore
modelled from §4.3 of the specification and validated below against every
vector of the repository's own tests. -/

/-- Modelled from the spec: the state of the streaming terminal simulation —
`done` holds the completed lines (line terminators stripped), `cur` the
characters accumulated for the current line.  A backspace deletes the last
character of the current line (a no-op when nothing is accumulated, never
crossing a line boundary); a carriage return immediately followed by a line
feed collapses to a single line break, while a lone carriage return discards
the current line's accumulation only; LF, VT and FF complete the current
line; every other character is appended to the current line. -/
def simAux (done : List (List Char)) (cur : List Char) :
    List Char → List (List Char) × List Char
  | [] => (done, cur)
  | '\r' :: '\n' :: rest => simAux (done ++ [cur]) [] rest
  | c :: rest =>
    if c = '\n' then simAux (done ++ [cur]) [] rest
    else if c = '\r' then simAux done [] rest
    else if c = '\x08' then simAux done cur.dropLast rest
    else if c = '\x0b' ∨ c = '\x0c' then simAux (done ++ [cur]) [] rest
    else simAux done (cur ++ [c]) rest

/-- Modelled from the spec: `simulateTerminal`, the streaming normalizer
variant whose definition is absent from the provided sources (only its test
`TestSimulateTerminal` is present) — it replays backspaces, carriage returns
and line-break control characters and renders the surviving lines. -/
def simulateTerminal (s : List Char) : List Char :=
  let res := simAux [] [] s
  List.intercalate ['\n'] (res.1 ++ [res.2])

/-- Parser mode of the escape-sequence removal pre-pass. -/
inductive AnsiMode where
  | text
  | esc
  | csi
  | osc
  | oscEsc
deriving DecidableEq, Repr

/-- Modelled from the spec: removal of CSI sequences (ESC `[` up to a final
byte in 0x40–0x7E), OSC sequences (ESC `]` up to BEL or ESC-backslash),
single-character ESC sequences, and bare BEL characters — all removed with
zero width. -/
def stripEscAux : AnsiMode → List Char → List Char
  | _, [] => []
  | .text, c :: rest =>
    if c = '\x1b' then stripEscAux .esc rest
    else if c = '\x07' then stripEscAux .text rest
    else c :: stripEscAux .text rest
  | .esc, c :: rest =>
    if c = '[' then stripEscAux .csi rest
    else if c = ']' then stripEscAux .osc rest
    else stripEscAux .text rest
  | .csi, c :: rest =>
    if 0x40 ≤ c.toNat ∧ c.toNat ≤ 0x7E then stripEscAux .text rest
    else stripEscAux .csi rest
  | .osc, c :: rest =>
    if c = '\x07' then stripEscAux .text rest
    else if c = '\x1b' then stripEscAux .oscEsc rest
    else stripEscAux .osc rest
  | .oscEsc, c :: rest =>
    if c = '\\' then stripEscAux .text rest
    else stripEscAux .osc rest

/-- Splitting a character stream at line feeds (separators removed). -/
def splitOnNlAux (cur : List Char) : List Char → List (List Char)
  | [] => [cur.reverse]
  | c :: rest =>
    if c = '\n' then cur.reverse :: splitOnNlAux [] rest
    else splitOnNlAux (c :: cur) rest

/-- List of the line-feed-separated pieces of a stream. -/
def splitOnNl (s : List Char) : List (List Char) := splitOnNlAux [] s

/-- Modelled from the spec: a terminator-less OSC fragment (digits followed by
a semicolon, the shape of an OSC payload left over from a prior split write)
that begins a line is treated as non-printable lead-in and dropped up to the
first newline. -/
def dropOscFragment (line : List Char) : List Char :=
  if line.takeWhile Char.isDigit ≠ [] ∧
      (line.dropWhile Char.isDigit).head? = some ';' then []
  else line

/-- Modelled from the spec: the full normalizer `stripANSI`, whose definition
is absent from the provided sources (only its tests are present) — escape
sequences are removed, leftover OSC fragments at line starts are dropped, and
the result is replayed through the terminal simulation. -/
def stripANSI (s : List Char) : List Char :=
  simulateTerminal
    (List.intercalate ['\n'] ((splitOnNl (stripEscAux .text s)).map dropOscFragment))

/-- Validation of the spec-modelled `simulateTerminal` against every vector of
the repository's `TestSimulateTerminal`. -/
theorem simulateTerminal_matches_tests :
    simulateTerminal (s2l "hello") = s2l "hello"
    ∧ simulateTerminal (s2l "ab\x08c") = s2l "ac"
    ∧ simulateTerminal (s2l "abcd\x08\x08\x08xyz") = s2l "axyz"
    ∧ simulateTerminal (s2l "\x08\x08abc") = s2l "abc"
    ∧ simulateTerminal (s2l "line1\n\x08\x08abc") = s2l "line1\nabc"
    ∧ simulateTerminal (s2l "hello\rworld") = s2l "world"
    ∧ simulateTerminal (s2l "line1\nold\rnew") = s2l "line1\nnew"
    ∧ simulateTerminal (s2l "a\r\nb") = s2l "a\nb"
    ∧ simulateTerminal (s2l "a\x0bb") = s2l "a\nb"
    ∧ simulateTerminal (s2l "a\x0cb") = s2l "a\nb"
    ∧ simulateTerminal (s2l "|\r/\r-\r\\\r|") = s2l "|" := by
  decide

/-- Validation of the spec-modelled `stripANSI` against every vector of the
repository's `TestStripANSI`. -/
theorem stripANSI_matches_tests :
    stripANSI (s2l "hello world") = s2l "hello world"
    ∧ stripANSI (s2l "\x1b[31mred text\x1b[0m") = s2l "red text"
    ∧ stripANSI (s2l "\x1b[1;32mbold green\x1b[0m") = s2l "bold green"
    ∧ stripANSI (s2l "\x1b[2Jclear screen\x1b[H") = s2l "clear screen"
    ∧ stripANSI (s2l "\x1b]0;Window Title\x07content") = s2l "content"
    ∧ stripANSI (s2l "\x1b]7;file://hostname/path\x07content") = s2l "content"
    ∧ stripANSI (s2l "7;file://M20RQRV6G4/Users/bytedance\nactual content")
        = s2l "\nactual content"
    ∧ stripANSI (s2l "start \x1b[31mred\x1b[0m middle \x1b[1mbold\x1b[0m end")
        = s2l "start red middle bold end"
    ∧ stripANSI (s2l "\x1b[38;5;196mred\x1b[0m") = s2l "red"
    ∧ stripANSI (s2l "\x1b[38;2;255;0;0mred\x1b[0m") = s2l "red"
    ∧ stripANSI (s2l "\x1b7saved\x1b8restored") = s2l "savedrestored"
    ∧ stripANSI (s2l "text\x1b[Kerased") = s2l "texterased"
    ∧ stripANSI (s2l "abc\x08\x08xy") = s2l "axy"
    ∧ stripANSI (s2l "line1\n\x08\x08line2") = s2l "line1\nline2"
    ∧ stripANSI (s2l "old text\rnew") = s2l "new"
    ∧ stripANSI (s2l "line1\r\nline2") = s2l "line1\nline2"
    ∧ stripANSI (s2l "alert\x07text") = s2l "alerttext"
    ∧ stripANSI (s2l "Loading... 10%\rLoading... 50%\rLoading... 100%")
        = s2l "Loading... 100%" := by
  decide

/-- C5: Normalizer carriage-return semantics — at any simulation state, a CR
not immediately followed by LF discards only the current line's accumulation
(the completed lines `done` are untouched) and continues from column zero,
while CR LF behaves exactly like a lone LF (a single line break); the three
concrete examples of the claim follow. -/
theorem normalizer_carriage_return_semantics :
    (∀ (done : List (List Char)) (cur v : List Char), v.head? ≠ some '\n' →
        simAux done cur ('\r' :: v) = simAux done [] v)
    ∧ (∀ (done : List (List Char)) (cur v : List Char),
        simAux done cur ('\r' :: '\n' :: v) = simAux done cur ('\n' :: v))
    ∧ simulateTerminal (s2l "|\r/\r-\r\\\r|") = s2l "|"
    ∧ simulateTerminal (s2l "old text\rnew\n") = s2l "new\n"
    ∧ simulateTerminal (s2l "line1\r\nline2") = s2l "line1\nline2" := by
  refine ⟨?_, ?_, by decide, by decide, by decide⟩
  · intro done cur v hv
    cases v with
    | nil => simp [simAux]
    | cons c v2 =>
      by_cases hc : c = '\n'
      · subst hc; simp at hv
      · rw [simAux.eq_def]
        split
        · next heq => simp at heq
        · next heq =>
          simp at heq
          exact absurd heq.1 hc
        · next heq =>
          simp only [List.cons.injEq, true_and] at heq
          obtain ⟨h1, h2⟩ := heq
          subst h1
          subst h2
          rw [if_neg (by decide : ¬ ('\x0d':Char) = '\n'), if_pos rfl]
  · intro done cur v
    simp [simAux]

/-- Witness for C5: a concrete carriage return not followed by a line feed
resets only the current accumulation. -/
theorem normalizer_carriage_return_semantics_witness :
    simAux [s2l "done"] (s2l "ab") ('\r' :: s2l "c")
      = simAux [s2l "done"] [] (s2l "c") :=
  normalizer_carriage_return_semantics.1 [s2l "done"] (s2l "ab") (s2l "c")
    (by decide)

/-- C6: Normalizer backspace semantics — at any simulation state, a backspace
deletes exactly the immediately preceding character of the current line's
accumulation, is a no-op when the current line is empty (in particular right
after a newline), and never touches the completed lines; the claim's two
concrete examples follow (via the full normalizer, as in `TestStripANSI`). -/
theorem normalizer_backspace_semantics :
    (∀ (done : List (List Char)) (cur : List Char) (c : Char) (v : List Char),
        simAux done (cur ++ [c]) ('\x08' :: v) = simAux done cur v)
    ∧ (∀ (done : List (List Char)) (v : List Char),
        simAux done [] ('\x08' :: v) = simAux done [] v)
    ∧ stripANSI (s2l "abc\x08\x08xy") = s2l "axy"
    ∧ stripANSI (s2l "line1\n\x08\x08line2") = s2l "line1\nline2" := by
  refine ⟨?_, ?_, by decide, by decide⟩
  · intro done cur c v
    simp [simAux]
  · intro done v
    simp [simAux]

/-- C2 (evaluation of the code at the failing input): `lineLimitedWriter.Write`
as implemented pushes the raw newline-terminated segment — escape bytes
included — onto the line ring, so after writing
"\x1b[31merror: something failed\x1b[0m\n" the file does not hold the
normalized line "error: something failed" that the repository's own test
`TestLineLimitedWriter_StripANSI` expects; the spec-modelled normalizer maps
the raw segment to exactly that text. -/
theorem writer_stores_raw_not_normalized :
    (writeAll (newLineLimitedWriter 5)
        [s2l "\x1b[31merror: something failed\x1b[0m\n"]).lines
      = [s2l "\x1b[31merror: something failed\x1b[0m\n"]
    ∧ (writeAll (newLineLimitedWriter 5)
        [s2l "\x1b[31merror: something failed\x1b[0m\n"]).flushContent
      ≠ s2l "error: something failed\n"
    ∧ stripANSI (s2l "\x1b[31merror: something failed\x1b[0m")
      = s2l "error: something failed" := by
  have hstart : newLineLimitedWriter 5
      = ⟨5, lastN (Int.toNat 5) (completedSplit []).1, (completedSplit []).2⟩ := by
    rw [completedSplit_nil]
    simp [newLineLimitedWriter, lastN]
  have hmain := writeAll_inv (show (0:Int) < 5 by norm_num) []
      [s2l "\x1b[31merror: something failed\x1b[0m\n"]
  rw [← hstart, List.nil_append] at hmain
  have hlines : (writeAll (newLineLimitedWriter 5)
      [s2l "\x1b[31merror: something failed\x1b[0m\n"]).lines
      = [s2l "\x1b[31merror: something failed\x1b[0m\n"] := by
    rw [hmain]
    decide
  refine ⟨hlines, ?_, by decide⟩
  unfold lineLimitedWriter.flushContent
  rw [hlines]
  decide

/-! ## Process singleton lock (`createProcessLock` / `cleanupProcessLock`)

The lock logic is embedded over an explicit lock-file state
(`Option (List Char)`, the file's content when it exists) and an environment
recording the outcome of each OS-level operation of one call together with the
PID-liveness predicate probed by signal 0. -/

/-- Whitespace recognized by `strings.TrimSpace` (the ASCII fragment of
`unicode.IsSpace`; lock files written by this program only ever hold ASCII). -/
def isSpaceChar (c : Char) : Bool :=
  c = ' ' ∨ c = '\t' ∨ c = '\n' ∨ c = '\x0b' ∨ c = '\x0c' ∨ c = '\x0d'

/-- Model of `strings.TrimSpace`: leading and trailing whitespace removed. -/
def trimSpace (s : List Char) : List Char :=
  ((s.dropWhile isSpaceChar).reverse.dropWhile isSpaceChar).reverse

/-- Nonempty all-digit run parsed as a decimal number. -/
def parseDigits (s : List Char) : Option Nat :=
  if s ≠ [] ∧ s.all Char.isDigit then
    some (s.foldl (fun acc c => acc * 10 + (c.toNat - 48)) 0)
  else none

/-- Model of `strconv.Atoi`: an optional sign followed by a nonempty digit
run; the int64 range check is elided (irrelevant for PID values). -/
def atoi (s : List Char) : Option Int :=
  match s with
  | '+' :: rest => (parseDigits rest).map Int.ofNat
  | '-' :: rest => (parseDigits rest).map (fun n => -(n : Int))
  | _ => (parseDigits s).map Int.ofNat

/-- Environment of one `createProcessLock` call: success of each OS operation
(`MkdirAll`, the create-only open, `Flock`, the PID write, `Sync`, the lock
file read) and the PID-liveness predicate probed with signal 0. -/
structure LockEnv where
  mkdirOk : Bool
  createOk : Bool
  flockOk : Bool
  writeOk : Bool
  syncOk : Bool
  readOk : Bool
  alive : Int → Bool
  myPid : Nat

/-- Content written to the lock file: the caller's decimal PID and a line
break (`fmt.Sprintf` of the PID followed by a newline write). -/
def lockContent (pid : Nat) : List Char := (Nat.repr pid).toList ++ ['\n']

/-- Outcome of `createProcessLock`: a handle, the "another instance is already
running" error, or any other (I/O) error. -/
inductive LockResult where
  | acquired
  | alreadyRunning
  | ioError
deriving DecidableEq, Repr

/-- Model of `isProcessRunning`: read the lock file, trim whitespace, parse
the PID and probe liveness with signal 0 (`os.FindProcess` never fails on
unix); a read or parse failure reports "not running". -/
def isProcessRunning (env : LockEnv) (content : List Char) : Bool :=
  if ¬ env.readOk then false
  else
    match atoi (trimSpace content) with
    | none => false
    | some pid => env.alive pid

/-- Tail of `createProcessLock` after a successful create-only open: take the
non-blocking exclusive flock, write the caller's PID, sync — on any failure
the handle is closed and the freshly created file removed. -/
def afterOpen (env : LockEnv) : LockResult × Option (List Char) :=
  if ¬ env.flockOk then (.ioError, none)
  else if ¬ env.writeOk then (.ioError, none)
  else if ¬ env.syncOk then (.ioError, none)
  else (.acquired, some (lockContent env.myPid))

/-- Model of `createProcessLock` as a transition on the lock-file state: a
failed `MkdirAll` is an I/O error; the create-only open fails exactly when the
file exists, in which case a live recorded PID reports already-running and
otherwise the stale file is removed and the open retried exactly once (a
failure of that single retry is a hard I/O error); a successful open proceeds
through flock, PID write and sync. -/
def createProcessLock (env : LockEnv) (s : Option (List Char)) :
    LockResult × Option (List Char) :=
  if ¬ env.mkdirOk then (.ioError, s)
  else
    match s with
    | none => if env.createOk then afterOpen env else (.ioError, none)
    | some content =>
      if isProcessRunning env content then (.alreadyRunning, some content)
      else if env.createOk then afterOpen env else (.ioError, none)

/-- Model of `cleanupProcessLock`: release the flock, close the handle and
best-effort delete the file — the lock file is absent afterwards. -/
def cleanupProcessLock (s : Option (List Char)) : Option (List Char) :=
  none

/-- C3: on an already-existing lock file, Acquire reads the recorded PID and
probes liveness — a live PID yields the already-running error with the file
untouched; a dead or unparsable PID (parse failures probe as "not running")
makes Acquire delete the stale file and retry the create-only open exactly
once: a failure of that single retry is a hard I/O error (the stale file stays
deleted), and a success acquires the lock, recording the caller's PID. -/
theorem acquire_on_existing_lock (env : LockEnv) (content : List Char)
    (hm : env.mkdirOk = true) :
    (isProcessRunning env content = true →
        createProcessLock env (some content) = (.alreadyRunning, some content))
    ∧ (isProcessRunning env content = false → env.createOk = false →
        createProcessLock env (some content) = (.ioError, none))
    ∧ (isProcessRunning env content = false → env.createOk = true →
        env.flockOk = true → env.writeOk = true → env.syncOk = true →
        createProcessLock env (some content)
          = (.acquired, some (lockContent env.myPid)))
    ∧ (atoi (trimSpace content) = none →
        isProcessRunning env content = false) := by
  refine ⟨?_, ?_, ?_, ?_⟩
  · intro h
    simp [createProcessLock, hm, h]
  · intro h hco
    simp [createProcessLock, hm, h, hco]
  · intro h hco hf hw hs
    simp [createProcessLock, afterOpen, hm, h, hco, hf, hw, hs]
  · intro h
    unfold isProcessRunning
    rw [h]
    simp

/-- Witness for C3: a lock file holding the unparsable PID text "abc" is
reclaimed and the lock acquired in an all-successful environment. -/
theorem acquire_on_existing_lock_witness :
    createProcessLock ⟨true, true, true, true, true, true, fun _ => false, 42⟩
        (some (s2l "abc\n"))
      = (.acquired, some (lockContent 42)) := by
  have h := acquire_on_existing_lock
      ⟨true, true, true, true, true, true, fun _ => false, 42⟩ (s2l "abc\n") rfl
  exact h.2.2.1 (by decide) rfl rfl rfl rfl

/-- C8: Acquire/Release round trip — Release always leaves the lock file
absent, and a subsequent Acquire on the same path, in an environment whose OS
operations succeed, acquires a fresh lock recording the caller's PID rather
than reporting already-running. -/
theorem acquire_after_release (env : LockEnv) (s : Option (List Char))
    (hm : env.mkdirOk = true) (hc : env.createOk = true)
    (hf : env.flockOk = true) (hw : env.writeOk = true)
    (hs : env.syncOk = true) :
    cleanupProcessLock s = none
    ∧ createProcessLock env (cleanupProcessLock s)
        = (.acquired, some (lockContent env.myPid))
    ∧ (createProcessLock env (cleanupProcessLock s)).1 ≠ .alreadyRunning := by
  refine ⟨rfl, ?_, ?_⟩
  · simp [cleanupProcessLock, createProcessLock, afterOpen, hm, hc, hf, hw, hs]
  · simp [cleanupProcessLock, createProcessLock, afterOpen, hm, hc, hf, hw, hs]

/-- Witness for C8: releasing a held lock (content: PID 42) and re-acquiring
succeeds in an all-successful environment. -/
theorem acquire_after_release_witness :
    createProcessLock ⟨true, true, true, true, true, true, fun _ => false, 42⟩
        (cleanupProcessLock (some (lockContent 42)))
      = (.acquired, some (lockContent 42)) :=
  (acquire_after_release
      ⟨true, true, true, true, true, true, fun _ => false, 42⟩
      (some (lockContent 42)) rfl rfl rfl rfl rfl).2.1

/-! ## Session path derivation (`GetSessionBasedLogFile`, session package)

The Go code builds paths with `path/filepath`; those library functions are
modelled for unix paths from their documented behavior. -/

/-- Path assembled from components joined by a slash. -/
def joinPath : List (List Char) → List Char
  | [] => []
  | [c] => c
  | c :: rest => c ++ '/' :: joinPath rest

/-- Helper of `splitSep`: `cur` accumulates (reversed) the current piece. -/
def splitSepAux (sep : Char) (cur : List Char) : List Char → List (List Char)
  | [] => [cur.reverse]
  | c :: rest =>
    if c = sep then cur.reverse :: splitSepAux sep [] rest
    else splitSepAux sep (c :: cur) rest

/-- Splitting at a separator character, separators removed (the empty input
yields one empty piece, as `strings.Split` does). -/
def splitSep (sep : Char) (s : List Char) : List (List Char) :=
  splitSepAux sep [] s

/-- One component step of the `Clean` stack (kept newest-first): empty and
"." components vanish; ".." pops the newest retained component when possible,
staying in place behind an unresolved ".." in relative paths and vanishing at
the root; every other component is pushed. -/
def cleanStep (rooted : Bool) (stack : List (List Char)) (c : List Char) :
    List (List Char) :=
  if c = [] ∨ c = ['.'] then stack
  else if c = ['.', '.'] then
    match stack with
    | [] => if rooted then [] else [c]
    | top :: rest => if top = ['.', '.'] then c :: stack else rest
  else c :: stack

/-- Model of unix `path/filepath.Clean`, by its documented behavior: repeated
separators, "." and ".." elements are resolved; the empty path cleans to ".". -/
def goClean (p : List Char) : List Char :=
  if p = [] then ['.']
  else if p.head? = some '/' then
    if ((splitSep '/' p).foldl (cleanStep true) []).reverse = [] then ['/']
    else '/' :: joinPath ((splitSep '/' p).foldl (cleanStep true) []).reverse
  else
    if ((splitSep '/' p).foldl (cleanStep false) []).reverse = [] then ['.']
    else joinPath ((splitSep '/' p).foldl (cleanStep false) []).reverse

/-- Helper of `goExt`, scanning the reversed path: collects characters until
the final dot (returning the extension in path order) and gives up at a path
separator or at the path start. -/
def goExtAux (acc : List Char) : List Char → List Char
  | [] => []
  | c :: rest =>
    if c = '/' then []
    else if c = '.' then c :: acc
    else goExtAux (c :: acc) rest

/-- Model of unix `filepath.Ext`: the suffix of the last path element starting
at its final dot (empty when the last element has no dot). -/
def goExt (p : List Char) : List Char := goExtAux [] p.reverse

/-- Separator test backing the `filepath` models. -/
def isSlash (c : Char) : Bool := c = '/'

/-- Model of unix `filepath.Base`: trailing slashes removed, then everything
after the last slash; the empty path gives ".", an all-slash path gives "/". -/
def goBase (p : List Char) : List Char :=
  if p = [] then ['.']
  else if (p.reverse.dropWhile isSlash).reverse = [] then ['/']
  else ((p.reverse.dropWhile isSlash).takeWhile (fun c => ! isSlash c)).reverse

/-- Everything up to and including the final slash (empty when there is no
slash): the unclean directory part that `filepath.Split` returns. -/
def upToLastSlash (p : List Char) : List Char :=
  (p.reverse.dropWhile (fun c => ! isSlash c)).reverse

/-- Model of unix `filepath.Dir`: the cleaned directory part of the path. -/
def goDir (p : List Char) : List Char := goClean (upToLastSlash p)

/-- Model of `strings.TrimSuffix`: the suffix removed when present. -/
def trimSuffix (s suffix : List Char) : List Char :=
  if suffix.isSuffixOf s then s.take (s.length - suffix.length) else s

/-- Model of the two-argument unix `filepath.Join`: empty elements dropped,
the slash-joined remainder cleaned; the all-empty join is empty. -/
def goJoin (a b : List Char) : List Char :=
  if a = [] ∧ b = [] then []
  else if a = [] then goClean b
  else if b = [] then goClean a
  else goClean (a ++ '/' :: b)

/-- `GetSessionBasedLogFile` (session package): an empty session id returns
the base path unchanged; otherwise `.sessionID` is inserted before the final
dot-extension of the base name (appended after a dot when the name has no
extension) and the result re-joined with the directory. -/
def GetSessionBasedLogFile (baseLogFile sessionID : List Char) : List Char :=
  if sessionID = [] then baseLogFile
  else
    goJoin (goDir baseLogFile)
      ((if goExt (goBase baseLogFile) ≠ []
        then trimSuffix (goBase baseLogFile) (goExt (goBase baseLogFile))
        else goBase baseLogFile)
        ++ '.' :: sessionID ++ goExt (goBase baseLogFile))

/-- `getSessionBasedLockFile` (proxy package): character-for-character the
same derivation as `GetSessionBasedLogFile`, applied to the lock base path. -/
def getSessionBasedLockFile (baseLockFile sessionID : List Char) : List Char :=
  if sessionID = [] then baseLockFile
  else
    goJoin (goDir baseLockFile)
      ((if goExt (goBase baseLockFile) ≠ []
        then trimSuffix (goBase baseLockFile) (goExt (goBase baseLockFile))
        else goBase baseLockFile)
        ++ '.' :: sessionID ++ goExt (goBase baseLockFile))

/-- Well-formed path component: nonempty, slash-free, and neither "." nor
"..". -/
def cleanComp (c : List Char) : Prop :=
  c ≠ [] ∧ '/' ∉ c ∧ c ≠ ['.'] ∧ c ≠ ['.', '.']

instance (c : List Char) : Decidable (cleanComp c) := by
  unfold cleanComp
  infer_instance

theorem takeWhile_append_stop {α : Type} {p : α → Bool} {xs : List α}
    (hxs : ∀ c ∈ xs, p c = true) {y : α} (hy : p y = false) (l : List α) :
    (xs ++ y :: l).takeWhile p = xs := by
  induction xs with
  | nil => simp [List.takeWhile_cons, hy]
  | cons x xt ih =>
    simp only [List.cons_append, List.takeWhile_cons, hxs x (by simp),
      ih (fun c hc => hxs c (by simp [hc]))]
    simp

theorem dropWhile_append_stop {α : Type} {p : α → Bool} {xs : List α}
    (hxs : ∀ c ∈ xs, p c = true) {y : α} (hy : p y = false) (l : List α) :
    (xs ++ y :: l).dropWhile p = y :: l := by
  induction xs with
  | nil => simp [List.dropWhile_cons, hy]
  | cons x xt ih =>
    simp only [List.cons_append, List.dropWhile_cons, hxs x (by simp)]
    exact ih (fun c hc => hxs c (by simp [hc]))

theorem dropWhile_of_head_neg {α : Type} {p : α → Bool} {x : α} {l : List α}
    (hx : p x = false) : (x :: l).dropWhile p = x :: l := by
  simp [List.dropWhile_cons, hx]

theorem joinPath_cons_ne_nil (c : List Char) {rest : List (List Char)}
    (hrest : rest ≠ []) : joinPath (c :: rest) = c ++ '/' :: joinPath rest := by
  cases rest with
  | nil => exact absurd rfl hrest
  | cons d t => rfl

theorem joinPath_append_last {dirs : List (List Char)} (hdirs : dirs ≠ [])
    (x : List Char) : joinPath (dirs ++ [x]) = joinPath dirs ++ '/' :: x := by
  induction dirs with
  | nil => exact absurd rfl hdirs
  | cons d rest ih =>
    cases rest with
    | nil => rfl
    | cons d2 t =>
      have e1 : (d :: d2 :: t) ++ [x] = d :: ((d2 :: t) ++ [x]) := rfl
      have e2 : joinPath (d :: ((d2 :: t) ++ [x]))
          = d ++ '/' :: joinPath ((d2 :: t) ++ [x]) :=
        joinPath_cons_ne_nil d (by simp)
      have e3 : joinPath (d :: d2 :: t) = d ++ '/' :: joinPath (d2 :: t) := rfl
      rw [e1, e2, ih (by simp), e3]
      simp

theorem joinPath_ne_nil {dirs : List (List Char)} (hdirs : dirs ≠ [])
    (h1 : ∀ d ∈ dirs, d ≠ []) : joinPath dirs ≠ [] := by
  cases dirs with
  | nil => exact absurd rfl hdirs
  | cons d rest =>
    cases rest with
    | nil => exact h1 d (by simp)
    | cons d2 t =>
      rw [joinPath_cons_ne_nil d (by simp)]
      simp

theorem joinPath_head {d : List Char} (rest : List (List Char)) (hd : d ≠ []) :
    (joinPath (d :: rest)).head? = d.head? := by
  cases rest with
  | nil => rfl
  | cons d2 t =>
    rw [joinPath_cons_ne_nil d (by simp)]
    obtain ⟨c, cs, rfl⟩ := List.exists_cons_of_ne_nil hd
    rfl

theorem splitSepAux_no_sep {sep : Char} {x : List Char} (hx : sep ∉ x)
    (cur l : List Char) :
    splitSepAux sep cur (x ++ l) = splitSepAux sep (x.reverse ++ cur) l := by
  induction x generalizing cur with
  | nil => simp
  | cons c xs ih =>
    have hc : ¬ (c = sep) := fun hh => hx (by simp [hh])
    simp only [List.cons_append, splitSepAux, if_neg hc, List.append_eq]
    rw [ih (fun hm => hx (List.mem_cons_of_mem _ hm)) (c :: cur)]
    simp

theorem splitSepAux_sep_head (sep : Char) (cur l : List Char) :
    splitSepAux sep cur (sep :: l) = cur.reverse :: splitSepAux sep [] l := by
  simp [splitSepAux]

theorem splitSep_joinPath {comps : List (List Char)} (hne : comps ≠ [])
    (hcomps : ∀ c ∈ comps, '/' ∉ c) :
    splitSep '/' (joinPath comps) = comps := by
  induction comps with
  | nil => exact absurd rfl hne
  | cons c rest ih =>
    cases rest with
    | nil =>
      show splitSepAux '/' [] (joinPath [c]) = [c]
      have h1 : joinPath [c] = c ++ [] := by simp [joinPath]
      rw [h1, splitSepAux_no_sep (hcomps c (by simp))]
      simp [splitSepAux]
    | cons c2 t =>
      rw [joinPath_cons_ne_nil c (by simp)]
      show splitSepAux '/' [] (c ++ '/' :: joinPath (c2 :: t)) = c :: c2 :: t
      rw [splitSepAux_no_sep (hcomps c (by simp)), splitSepAux_sep_head]
      simp only [List.append_nil, List.reverse_reverse]
      congr 1
      exact ih (by simp) (fun d hd => hcomps d (List.mem_cons_of_mem _ hd))

theorem splitSep_joinPath_slash {comps : List (List Char)} (hne : comps ≠ [])
    (hcomps : ∀ c ∈ comps, '/' ∉ c) :
    splitSep '/' (joinPath comps ++ ['/']) = comps ++ [[]] := by
  induction comps with
  | nil => exact absurd rfl hne
  | cons c rest ih =>
    cases rest with
    | nil =>
      show splitSepAux '/' [] (joinPath [c] ++ ['/']) = [c, []]
      have h1 : joinPath [c] ++ ['/'] = c ++ ['/'] := by simp [joinPath]
      rw [h1, splitSepAux_no_sep (hcomps c (by simp))]
      simp [splitSepAux]
    | cons c2 t =>
      rw [joinPath_cons_ne_nil c (by simp)]
      show splitSepAux '/' [] ((c ++ '/' :: joinPath (c2 :: t)) ++ ['/'])
          = c :: (c2 :: t ++ [[]])
      rw [List.append_assoc, List.cons_append,
        splitSepAux_no_sep (hcomps c (by simp)), splitSepAux_sep_head]
      simp only [List.append_nil, List.reverse_reverse]
      congr 1
      exact ih (by simp) (fun d hd => hcomps d (List.mem_cons_of_mem _ hd))

theorem cleanStep_push {rooted : Bool} {c : List Char} (hc : cleanComp c)
    (stack : List (List Char)) : cleanStep rooted stack c = c :: stack := by
  unfold cleanStep
  rw [if_neg, if_neg hc.2.2.2]
  push_neg
  exact ⟨hc.1, hc.2.2.1⟩

theorem foldl_cleanStep_clean {rooted : Bool} {comps : List (List Char)}
    (h : ∀ c ∈ comps, cleanComp c) (stack : List (List Char)) :
    comps.foldl (cleanStep rooted) stack = comps.reverse ++ stack := by
  induction comps generalizing stack with
  | nil => simp
  | cons c rest ih =>
    rw [List.foldl_cons, cleanStep_push (h c (by simp)),
      ih (fun d hd => h d (List.mem_cons_of_mem _ hd))]
    simp

theorem goClean_joinPath {comps : List (List Char)} (hne : comps ≠ [])
    (hcomps : ∀ c ∈ comps, cleanComp c) :
    goClean (joinPath comps) = joinPath comps := by
  obtain ⟨c, rest, rfl⟩ := List.exists_cons_of_ne_nil hne
  have hc := hcomps c (by simp)
  have hpne : joinPath (c :: rest) ≠ [] :=
    joinPath_ne_nil (by simp) (fun d hd => (hcomps d hd).1)
  have hrooted : ¬ ((joinPath (c :: rest)).head? = some '/') := by
    rw [joinPath_head rest hc.1]
    obtain ⟨ch, ct, rfl⟩ := List.exists_cons_of_ne_nil hc.1
    have : ch ≠ '/' := fun hh => hc.2.1 (by simp [hh])
    simp [this]
  unfold goClean
  rw [if_neg hpne, if_neg hrooted,
    splitSep_joinPath (by simp) (fun d hd => (hcomps d hd).2.1),
    foldl_cleanStep_clean hcomps, List.append_nil, List.reverse_reverse,
    if_neg (by simp)]

theorem goClean_joinPath_slash {comps : List (List Char)} (hne : comps ≠ [])
    (hcomps : ∀ c ∈ comps, cleanComp c) :
    goClean (joinPath comps ++ ['/']) = joinPath comps := by
  obtain ⟨c, rest, rfl⟩ := List.exists_cons_of_ne_nil hne
  have hc := hcomps c (by simp)
  have hjne : joinPath (c :: rest) ≠ [] :=
    joinPath_ne_nil (by simp) (fun d hd => (hcomps d hd).1)
  have hpne : joinPath (c :: rest) ++ ['/'] ≠ [] := by simp
  have hrooted : ¬ ((joinPath (c :: rest) ++ ['/']).head? = some '/') := by
    rw [List.head?_append_of_ne_nil _ hjne, joinPath_head rest hc.1]
    obtain ⟨ch, ct, rfl⟩ := List.exists_cons_of_ne_nil hc.1
    have : ch ≠ '/' := fun hh => hc.2.1 (by simp [hh])
    simp [this]
  unfold goClean
  rw [if_neg hpne, if_neg hrooted,
    splitSep_joinPath_slash (by simp) (fun d hd => (hcomps d hd).2.1),
    List.foldl_append, foldl_cleanStep_clean hcomps, List.append_nil]
  show (if (cleanStep false (List.reverse (c :: rest)) []).reverse = []
      then ['.'] else joinPath (cleanStep false (List.reverse (c :: rest)) []).reverse)
      = joinPath (c :: rest)
  have hstep : cleanStep false (List.reverse (c :: rest)) [] = (c :: rest).reverse := by
    unfold cleanStep
    rw [if_pos (Or.inl rfl)]
  rw [hstep, List.reverse_reverse, if_neg (by simp)]

theorem goExtAux_skip {xs : List Char} (hdot : '.' ∉ xs) (hslash : '/' ∉ xs)
    (acc l : List Char) :
    goExtAux acc (xs ++ l) = goExtAux (xs.reverse ++ acc) l := by
  induction xs generalizing acc with
  | nil => simp
  | cons c ct ih =>
    have h1 : ¬ (c = '/') := fun hh => hslash (by simp [hh])
    have h2 : ¬ (c = '.') := fun hh => hdot (by simp [hh])
    simp only [List.cons_append, goExtAux, if_neg h1, if_neg h2, List.append_eq]
    rw [ih (fun hm => hdot (List.mem_cons_of_mem _ hm))
      (fun hm => hslash (List.mem_cons_of_mem _ hm)) (c :: acc)]
    simp

theorem goExtAux_dot (acc l : List Char) : goExtAux acc ('.' :: l) = '.' :: acc := by
  simp [goExtAux]

/-- Characterization of the extension scan: when a name splits as
`stem ++ ext` at its final dot (`ext` empty exactly when the name has no
dot), `filepath.Ext` returns `ext`. -/
theorem goExt_split {stem ext : List Char} (hslash : '/' ∉ stem ++ ext)
    (hext : (ext = [] ∧ '.' ∉ stem) ∨ ∃ e, ext = '.' :: e ∧ '.' ∉ e) :
    goExt (stem ++ ext) = ext := by
  have hsl1 : '/' ∉ stem := fun hm => hslash (List.mem_append.mpr (Or.inl hm))
  rcases hext with ⟨hnil, hdot⟩ | ⟨e, he, hdot⟩
  · subst hnil
    unfold goExt
    have h1 : (stem ++ ([] : List Char)).reverse = stem.reverse ++ [] := by simp
    rw [h1, goExtAux_skip (by simpa using hdot) (by simpa using hsl1)]
    rfl
  · subst he
    have hsl2 : '/' ∉ e := by
      intro hm
      exact hslash (List.mem_append.mpr (Or.inr (by simp [hm])))
    unfold goExt
    have h1 : (stem ++ '.' :: e).reverse = e.reverse ++ '.' :: stem.reverse := by
      simp
    rw [h1, goExtAux_skip (by simpa using hdot) (by simpa using hsl2),
      goExtAux_dot]
    simp

theorem trimSuffix_append (a b : List Char) : trimSuffix (a ++ b) b = a := by
  unfold trimSuffix
  rw [if_pos (by simp [List.isSuffixOf])]
  have h1 : (a ++ b).length - b.length = a.length := by simp
  rw [h1, List.take_left]

theorem goBase_joinPath {dirs : List (List Char)} {name : List Char}
    (hname : name ≠ []) (hslash : '/' ∉ name) :
    goBase (joinPath dirs ++ '/' :: name) = name := by
  have hns : ∀ c ∈ name.reverse, isSlash c = false := by
    intro c hc
    have hmem : c ∈ name := List.mem_reverse.mp hc
    have : ¬ (c = '/') := fun hh => hslash (hh ▸ hmem)
    simp [isSlash, this]
  have hrev : (joinPath dirs ++ '/' :: name).reverse
      = name.reverse ++ '/' :: (joinPath dirs).reverse := by simp
  have hdropEq : ((joinPath dirs ++ '/' :: name).reverse).dropWhile isSlash
      = name.reverse ++ '/' :: (joinPath dirs).reverse := by
    rw [hrev]
    obtain ⟨ch, ct, hct⟩ := List.exists_cons_of_ne_nil
      (show name.reverse ≠ [] by simpa using hname)
    rw [hct, List.cons_append]
    exact dropWhile_of_head_neg (hns ch (hct ▸ List.mem_cons_self ch ct))
  unfold goBase
  rw [if_neg (by simp), hdropEq, if_neg (by simp)]
  rw [takeWhile_append_stop (fun c hc => by simp [hns c hc])
    (by simp [isSlash]) _]
  simp

theorem upToLastSlash_append {dirs : List (List Char)} {name : List Char}
    (hslash : '/' ∉ name) :
    upToLastSlash (joinPath dirs ++ '/' :: name) = joinPath dirs ++ ['/'] := by
  have hns : ∀ c ∈ name.reverse, (! isSlash c) = true := by
    intro c hc
    have hmem : c ∈ name := List.mem_reverse.mp hc
    have : ¬ (c = '/') := fun hh => hslash (hh ▸ hmem)
    simp [isSlash, this]
  unfold upToLastSlash
  have hrev : (joinPath dirs ++ '/' :: name).reverse
      = name.reverse ++ '/' :: (joinPath dirs).reverse := by simp
  rw [hrev, dropWhile_append_stop hns (by simp [isSlash]) _]
  simp

theorem goDir_joinPath {dirs : List (List Char)} {name : List Char}
    (hdirs : dirs ≠ []) (hcomps : ∀ d ∈ dirs, cleanComp d)
    (hname : name ≠ []) (hslash : '/' ∉ name) :
    goDir (joinPath (dirs ++ [name])) = joinPath dirs := by
  unfold goDir
  rw [joinPath_append_last hdirs, upToLastSlash_append hslash,
    goClean_joinPath_slash hdirs hcomps]

theorem goJoin_joinPath {dirs : List (List Char)} {name : List Char}
    (hdirs : dirs ≠ []) (hcomps : ∀ d ∈ dirs, cleanComp d)
    (hname : cleanComp name) :
    goJoin (joinPath dirs) name = joinPath (dirs ++ [name]) := by
  have ha : joinPath dirs ≠ [] :=
    joinPath_ne_nil hdirs (fun d hd => (hcomps d hd).1)
  have hall : ∀ d ∈ dirs ++ [name], cleanComp d := by
    intro d hd
    rcases List.mem_append.mp hd with h | h
    · exact hcomps d h
    · simp at h
      subst h
      exact hname
  unfold goJoin
  rw [if_neg (by simp [ha]), if_neg ha, if_neg hname.1,
    ← joinPath_append_last hdirs]
  exact goClean_joinPath (by simp) hall

/-- C4: Session path derivation is a pure total function — for a base path
`dir/name` whose final element splits as `stem ++ ext` at the final
dot-extension, and a nonempty session id `S`, the derived path replaces the
final element by `stem ++ "." ++ S ++ ext` (so only the final dot-extension is
split, and an empty extension means `.S` is simply appended after the name);
an empty session id returns the base path unchanged; and the lock-file
derivation is the same function. -/
theorem session_path_derivation (dirs : List (List Char)) (stem ext S : List Char)
    (hdirs : dirs ≠ []) (hcomps : ∀ d ∈ dirs, cleanComp d)
    (hname : cleanComp (stem ++ ext))
    (hext : (ext = [] ∧ '.' ∉ stem) ∨ ∃ e, ext = '.' :: e ∧ '.' ∉ e)
    (hname2 : cleanComp (stem ++ '.' :: (S ++ ext))) (hS : S ≠ []) :
    GetSessionBasedLogFile (joinPath (dirs ++ [stem ++ ext])) S
        = joinPath (dirs ++ [stem ++ '.' :: (S ++ ext)])
    ∧ (∀ base, GetSessionBasedLogFile base [] = base)
    ∧ (∀ base sid, getSessionBasedLockFile base sid
        = GetSessionBasedLogFile base sid) := by
  refine ⟨?_, fun base => by simp [GetSessionBasedLogFile], fun base sid => rfl⟩
  have hb : goBase (joinPath (dirs ++ [stem ++ ext])) = stem ++ ext := by
    rw [joinPath_append_last hdirs]
    exact goBase_joinPath hname.1 hname.2.1
  unfold GetSessionBasedLogFile
  rw [if_neg hS, hb, goDir_joinPath hdirs hcomps hname.1 hname.2.1,
    goExt_split hname.2.1 hext]
  rcases hext with ⟨hnil, _⟩ | ⟨e, he, _⟩
  · subst hnil
    rw [if_neg (by simp)]
    have h2 : (stem ++ []) ++ '.' :: S ++ [] = stem ++ '.' :: (S ++ []) := by
      simp
    rw [h2]
    exact goJoin_joinPath hdirs hcomps hname2
  · subst he
    rw [if_pos (by simp), trimSuffix_append]
    have h2 : stem ++ '.' :: S ++ '.' :: e = stem ++ '.' :: (S ++ '.' :: e) := by
      simp
    rw [h2]
    exact goJoin_joinPath hdirs hcomps hname2

/-- Witness for C4 at the spec's concrete example:
`DeriveSiblingPath("a/log.tar.gz","123") = "a/log.tar.123.gz"`. -/
theorem session_path_derivation_witness :
    GetSessionBasedLogFile (s2l "a/log.tar.gz") (s2l "123")
      = s2l "a/log.tar.123.gz" := by
  have h := (session_path_derivation [s2l "a"] (s2l "log.tar") (s2l ".gz")
      (s2l "123") (by simp) (by decide) (by decide)
      (Or.inr ⟨s2l "gz", by decide, by decide⟩) (by decide) (by decide)).1
  have e1 : joinPath ([s2l "a"] ++ [s2l "log.tar" ++ s2l ".gz"])
      = s2l "a/log.tar.gz" := by decide
  have e2 : joinPath ([s2l "a"] ++ [s2l "log.tar" ++ '.' :: (s2l "123" ++ s2l ".gz")])
      = s2l "a/log.tar.123.gz" := by decide
  rw [e1, e2] at h
  exact h

/-! ## Stale session log purge (`cleanupOldSessionLogs`) -/

/-- Directory entry as seen by the purge loop: its name, directory flag, and
the result of the per-entry `os.Stat` (`some` modification time on an integer
clock, `none` for a stat error). -/
structure DirEntry where
  name : List Char
  isDir : Bool
  mtime : Option Int
deriving DecidableEq, Repr

/-- Model of `path/filepath.Match` restricted to the metacharacter occurring
in the derived pattern: `*` matches any (possibly empty) character run and
every other pattern character matches itself (`?`, character classes and
escapes do not occur in log-file patterns). Directory entry names contain no
separator, so the rule that `*` never matches a separator is vacuous here. -/
def goMatch : List Char → List Char → Bool
  | [], name => name.isEmpty
  | p :: ps, name =>
    if p = '*' then
      goMatch ps name ||
        (match name with
         | [] => false
         | _ :: nr => goMatch (p :: ps) nr)
    else
      match name with
      | [] => false
      | c :: nr => p = c && goMatch ps nr
termination_by p n => (n.length, p.length)

/-- Pattern derivation of `cleanupOldSessionLogs`: `stem.*ext` built from the
base log name (extension split off the base name exactly as in the session
path derivation). -/
def sessionLogPattern (baseLogPath : List Char) : List Char :=
  (if goExt (goBase baseLogPath) ≠ []
   then trimSuffix (goBase baseLogPath) (goExt (goBase baseLogPath))
   else goBase baseLogPath)
    ++ '.' :: '*' :: goExt (goBase baseLogPath)

/-- Deletion loop of `cleanupOldSessionLogs` over the directory listing:
directories, names not matching the pattern, the base file itself and entries
whose stat fails are skipped (`continue`); a matching regular file whose
modification time is strictly before the cutoff is removed. Returns the
deleted names in listing order (removal errors are ignored). -/
def cleanupLoop (pattern baseName : List Char) (cutoff : Int) :
    List DirEntry → List (List Char)
  | [] => []
  | e :: rest =>
    if e.isDir then cleanupLoop pattern baseName cutoff rest
    else if ¬ (goMatch pattern e.name = true) then
      cleanupLoop pattern baseName cutoff rest
    else if e.name = baseName then cleanupLoop pattern baseName cutoff rest
    else
      match e.mtime with
      | none => cleanupLoop pattern baseName cutoff rest
      | some t =>
        if t < cutoff then e.name :: cleanupLoop pattern baseName cutoff rest
        else cleanupLoop pattern baseName cutoff rest

/-- Model of `cleanupOldSessionLogs`: a failed `ReadDir` propagates as the
call's error (`none`); otherwise the entries are processed with
`cutoff = now - maxAge` and the call succeeds, returning the deleted names. -/
def cleanupOldSessionLogs (now maxAge : Int) (baseLogPath : List Char)
    (listing : Option (List DirEntry)) : Option (List (List Char)) :=
  match listing with
  | none => none
  | some entries =>
    some (cleanupLoop (sessionLogPattern baseLogPath) (goBase baseLogPath)
      (now - maxAge) entries)

/-- The early-continue loop is the filter the specification describes. -/
theorem cleanupLoop_eq_filter (pattern baseName : List Char) (cutoff : Int)
    (entries : List DirEntry) :
    cleanupLoop pattern baseName cutoff entries
      = (entries.filter (fun e =>
          !e.isDir && goMatch pattern e.name && decide (e.name ≠ baseName)
          && (match e.mtime with
              | some t => decide (t < cutoff)
              | none => false))).map DirEntry.name := by
  induction entries with
  | nil => rfl
  | cons e rest ih =>
    unfold cleanupLoop
    rw [List.filter_cons]
    by_cases h1 : e.isDir = true
    · simp [h1, ih]
    · by_cases h2 : goMatch pattern e.name = true
      · by_cases h3 : e.name = baseName
        · simp [h1, h2, h3, ih]
        · cases hm : e.mtime with
          | none => simp [h1, h2, h3, hm, ih]
          | some t =>
            by_cases h4 : t < cutoff
            · simp [h1, h2, h3, hm, h4, ih]
            · simp [h1, h2, h3, hm, h4, ih]
      · simp [h1, h2, ih]

theorem goMatch_literal {ps : List Char} (h : '*' ∉ ps) (n : List Char) :
    goMatch ps n = true ↔ n = ps := by
  induction ps generalizing n with
  | nil => cases n <;> simp [goMatch]
  | cons p pt ih =>
    have hp : ¬ (p = '*') := fun hh => h (by simp [hh])
    cases n with
    | nil => simp [goMatch, hp]
    | cons c nr =>
      simp only [goMatch, if_neg hp, Bool.and_eq_true, decide_eq_true_eq,
        List.cons.injEq]
      rw [ih (fun hm => h (List.mem_cons_of_mem _ hm))]
      constructor
      · rintro ⟨h1, h2⟩
        exact ⟨h1.symm, h2⟩
      · rintro ⟨h1, h2⟩
        exact ⟨h1.symm, h2⟩

theorem goMatch_append_literal {stem : List Char} (h : '*' ∉ stem)
    (rest n : List Char) :
    goMatch (stem ++ rest) n = true
      ↔ ∃ n2, n = stem ++ n2 ∧ goMatch rest n2 = true := by
  induction stem generalizing n with
  | nil => simp
  | cons p pt ih =>
    have hp : ¬ (p = '*') := fun hh => h (by simp [hh])
    cases n with
    | nil =>
      simp only [List.cons_append, goMatch, if_neg hp]
      constructor
      · intro hf; cases hf
      · rintro ⟨n2, hn2, _⟩; cases hn2
    | cons c nr =>
      simp only [List.cons_append, goMatch, if_neg hp, Bool.and_eq_true,
        decide_eq_true_eq]
      rw [ih (fun hm => h (List.mem_cons_of_mem _ hm)) nr]
      constructor
      · rintro ⟨hpc, n2, hn2, hm⟩
        exact ⟨n2, by rw [hn2, hpc], hm⟩
      · rintro ⟨n2, hn2, hm⟩
        injection hn2 with h1 h2
        exact ⟨h1.symm, n2, h2, hm⟩

theorem goMatch_star_nil (ps : List Char) :
    goMatch ('*' :: ps) [] = goMatch ps [] := by
  simp [goMatch]

theorem goMatch_star_cons (ps : List Char) (c : Char) (nr : List Char) :
    goMatch ('*' :: ps) (c :: nr)
      = (goMatch ps (c :: nr) || goMatch ('*' :: ps) nr) := by
  simp [goMatch]

theorem goMatch_star {ext : List Char} (h : '*' ∉ ext) (n : List Char) :
    goMatch ('*' :: ext) n = true ↔ ∃ mid, n = mid ++ ext := by
  induction n with
  | nil =>
    rw [goMatch_star_nil, goMatch_literal h]
    constructor
    · intro he
      exact ⟨[], by rw [← he]; rfl⟩
    · rintro ⟨mid, hm⟩
      have h2 := List.append_eq_nil.mp hm.symm
      rw [h2.2]
  | cons c nr ih =>
    rw [goMatch_star_cons, Bool.or_eq_true, goMatch_literal h, ih]
    constructor
    · rintro (he | ⟨mid, hm⟩)
      · exact ⟨[], by rw [he]; rfl⟩
      · exact ⟨c :: mid, by rw [hm]; rfl⟩
    · rintro ⟨mid, hm⟩
      cases mid with
      | nil => exact Or.inl (by simpa using hm)
      | cons m mt =>
        right
        rw [List.cons_append] at hm
        injection hm with h1 h2
        exact ⟨mt, h2⟩

/-- Names matching the derived pattern `stem.*ext` (with star-free `stem` and
`ext`) are exactly those of the shape `stem ++ "." ++ mid ++ ext`. -/
theorem goMatch_session_pattern {stem ext : List Char} (hstem : '*' ∉ stem)
    (hext : '*' ∉ ext) (n : List Char) :
    goMatch (stem ++ '.' :: '*' :: ext) n = true
      ↔ ∃ mid, n = stem ++ '.' :: (mid ++ ext) := by
  have h1 : '*' ∉ stem ++ ['.'] := by
    intro hm
    rcases List.mem_append.mp hm with hm | hm
    · exact hstem hm
    · simp at hm
  have h2 : stem ++ '.' :: '*' :: ext = (stem ++ ['.']) ++ '*' :: ext := by simp
  rw [h2, goMatch_append_literal h1]
  constructor
  · rintro ⟨n2, hn2, hm⟩
    obtain ⟨mid, rfl⟩ := (goMatch_star hext n2).mp hm
    exact ⟨mid, by rw [hn2]; simp⟩
  · rintro ⟨mid, rfl⟩
    refine ⟨mid ++ ext, by simp, ?_⟩
    exact (goMatch_star hext _).mpr ⟨mid, rfl⟩

/-- C7: the purge deletes exactly the right files — with a successful
directory listing the call succeeds and deletes precisely the non-directory
entries whose name matches the `stem.*ext` pattern derived from the base log
name, that are not the base file itself, and whose stat succeeded with a
modification time strictly older than `now - maxAge`; the base file, newer
matches, directories and stat errors are all left untouched, and stat errors
never fail the call. Moreover a star-free name matches the derived pattern
exactly when it has the session-sibling shape `stem ++ "." ++ mid ++ ext`. -/
theorem purge_deletes_exactly_stale_siblings (now maxAge : Int)
    (baseLogPath : List Char) (entries : List DirEntry) :
    cleanupOldSessionLogs now maxAge baseLogPath (some entries)
      = some ((entries.filter (fun e =>
          !e.isDir && goMatch (sessionLogPattern baseLogPath) e.name
          && decide (e.name ≠ goBase baseLogPath)
          && (match e.mtime with
              | some t => decide (t < now - maxAge)
              | none => false))).map DirEntry.name)
    ∧ cleanupOldSessionLogs now maxAge baseLogPath none = none
    ∧ (∀ stem ext n, '*' ∉ stem → '*' ∉ ext →
        (goMatch (stem ++ '.' :: '*' :: ext) n = true
          ↔ ∃ mid, n = stem ++ '.' :: (mid ++ ext))) := by
  refine ⟨?_, rfl, fun stem ext n hstem hext =>
    goMatch_session_pattern hstem hext n⟩
  show some (cleanupLoop (sessionLogPattern baseLogPath) (goBase baseLogPath)
      (now - maxAge) entries) = _
  rw [cleanupLoop_eq_filter]

/-- Witness for C7: the pattern-shape equivalence instantiated at the
star-free stem "proxy" and extension ".log" on the name "proxy.old.log". -/
theorem purge_deletes_exactly_stale_siblings_witness :
    goMatch (s2l "proxy" ++ '.' :: '*' :: s2l ".log") (s2l "proxy.old.log") = true
      ↔ ∃ mid, s2l "proxy.old.log" = s2l "proxy" ++ '.' :: (mid ++ s2l ".log") :=
  (purge_deletes_exactly_stale_siblings 100 24 (s2l "tmp/proxy.log") []).2.2
    (s2l "proxy") (s2l ".log") (s2l "proxy.old.log") (by decide) (by decide)

end SmartSuggestion
